import Mathlib

/-!
Shallow embedding of the search engine in `src/search_engine.py`
(class `MinimalBlogSearchEngine`) and verification of the specification's
claims about it.

Modelling conventions:
* Python strings are modelled as `List Char` (`Str`); `str.lower`, `str.strip`,
  `str.startswith`, `str.replace(pat, '')`, `str.split('\n')`, `'\n'.join`,
  slicing and the substring test `in` are modelled by the explicit functions
  below, character-faithful for the ASCII texts the engine handles.
* Python dicts (`blog_metadata`, `doc_embeddings`, the word-vector table
  `model.wv`) are modelled as insertion-ordered association lists, matching
  the insertion-ordered iteration of Python dicts.
* numpy float vectors are modelled as exact rational vectors `Fin D → ℚ`;
  `np.linalg.norm v == 0` is modelled by `normSq v = 0` (over the reals a
  norm vanishes iff its square does).  The cosine similarity
  `np.dot(q/|q|, d/|d|)` is irrational in general, so the stored score is
  an exact rational, strictly monotone encoding of it — see `simScore`:
  the encoding preserves the comparison order used by the sort, which is
  the only way ranker scores are consumed.
* File input and the directory listing are passed as explicit data:
  a read that raises an exception is a `none` result.
-/

/-- Python strings, as lists of characters. -/
abbrev Str := List Char

/-- Model of Python `str.lower()` (characterwise ASCII lowering, as performed
by `Char.toLower`). -/
def lowerStr (s : Str) : Str := s.map Char.toLower

/-- Model of Python `str.strip()`: drop whitespace from both ends. -/
def trimWs (s : Str) : Str :=
  ((s.dropWhile Char.isWhitespace).reverse.dropWhile Char.isWhitespace).reverse

/-- Model of Python `str.startswith(pat)`: `isPrefixL pat s` is true when
`pat` is a prefix of `s`. -/
def isPrefixL : Str → Str → Bool
  | [], _ => true
  | _ :: _, [] => false
  | a :: as, b :: bs => a == b && isPrefixL as bs

/-- Model of the Python substring test `needle in hay`. -/
def containsSub (needle : Str) : Str → Bool
  | [] => isPrefixL needle []
  | c :: t => isPrefixL needle (c :: t) || containsSub needle t

/-- Model of Python `content.split('\n')`. -/
def splitLines : Str → List Str
  | [] => [[]]
  | c :: cs =>
    if c = '\n' then [] :: splitLines cs
    else
      match splitLines cs with
      | [] => [[c]]
      | l :: ls => (c :: l) :: ls

/-- Model of Python `'\n'.join(lines)`. -/
def joinNl : List Str → Str
  | [] => []
  | [l] => l
  | l :: ls => l ++ '\n' :: joinNl ls

/-- Helper for `replaceRemove`: removes every occurrence of the nonempty
pattern `p :: ps`, scanning left to right and skipping past each match,
exactly as Python `str.replace(pat, '')` does. -/
def removeOcc (p : Char) (ps : Str) : Str → Str
  | [] => []
  | c :: cs =>
    if isPrefixL (p :: ps) (c :: cs) then removeOcc p ps (cs.drop ps.length)
    else c :: removeOcc p ps cs
termination_by l => l.length
decreasing_by
  all_goals simp only [List.length_cons, List.length_drop]
  all_goals omega

/-- Model of Python `s.replace(pat, '')` (the engine only ever replaces by the
empty string).  Python never calls it with an empty pattern here. -/
def replaceRemove (pat : Str) (s : Str) : Str :=
  match pat with
  | [] => s
  | p :: ps => removeOcc p ps s

/-- Maximal runs of alphabetic characters of the input; `acc` holds the
(reversed) run currently being read. -/
def splitRuns (acc : Str) : Str → List Str
  | [] => if acc.isEmpty then [] else [acc.reverse]
  | c :: cs =>
    if c.isAlpha then splitRuns (c :: acc) cs
    else (if acc.isEmpty then [] else [acc.reverse]) ++ splitRuns [] cs

/-- Modelled from the spec: `gensim.utils.simple_preprocess`, the tokenizer
called by `_clean_text` (src/search_engine.py line 29), is library code not
under `src/`.  Per the spec (section 4.1) it "lower-cases, strips
non-alphabetic noise, and retains only tokens whose length lies within an
inclusive range [minLen, maxLen]". -/
def simple_preprocess (minLen maxLen : ℕ) (text : Str) : List Str :=
  (splitRuns [] (lowerStr text)).filter fun t =>
    decide (minLen ≤ t.length ∧ t.length ≤ maxLen)

/-- Model of `_clean_text` (src/search_engine.py lines 28-29):
`simple_preprocess(text, min_len=3, max_len=50)`. -/
def clean_text (text : Str) : List Str := simple_preprocess 3 50 text

/-- Fixed-dimension rational vectors, the model of numpy float arrays of
length `D`. -/
abbrev Vec (D : ℕ) := Fin D → ℚ

/-- Model of `np.zeros(D)`. -/
def zeroVec (D : ℕ) : Vec D := fun _ => 0

/-- Model of `np.mean(vectors, axis=0)`: the component-wise arithmetic mean. -/
def vmean {D : ℕ} (vs : List (Vec D)) : Vec D :=
  fun i => (vs.map fun v => v i).sum / (vs.length : ℚ)

/-- Model of `np.dot`. -/
def dotV {D : ℕ} (u v : Vec D) : ℚ := ∑ i, u i * v i

/-- The squared L2 norm.  The code tests `np.linalg.norm(v) == 0` and
`np.linalg.norm(v) > 0`; over the reals both are equivalent to the same
tests on the squared norm, which stays rational. -/
def normSq {D : ℕ} (v : Vec D) : ℚ := ∑ i, v i * v i

/-- The score stored for a document by `_compute_similarities`
(src/search_engine.py line 111, `np.dot(normalized_query, normalized_doc)`).
The true cosine value `dot/(‖q‖·‖d‖)` is irrational in general; we store the
exact rational `dot·|dot| / (normSq q · normSq d)`, its image under the
strictly increasing map `x ↦ x·|x|` (after dividing by the positive
`‖q‖·‖d‖`), so comparisons between scores of the same query — the only use
the code makes of them, in `sorted(...)` — are preserved exactly. -/
def simScore {D : ℕ} (q d : Vec D) : ℚ :=
  dotV q d * |dotV q d| / (normSq q * normSq d)

/-- Model of the Python metadata dict built by `_index_single_blog`
(src/search_engine.py lines 60-76): a field is `none` exactly when the
corresponding key was never assigned. -/
structure Metadata where
  title : Option Str := none
  author : Option Str := none
  category : Option Str := none
  url : Option Str := none
  content_preview : Str := []
deriving DecidableEq

/-- Model of the empty Python dict `{}` used by
`self.blog_metadata.get(filename, {})`. -/
def Metadata.emptyDict : Metadata := {}

/-- Lookup in an insertion-ordered association list (Python `d[k]` /
`d.get(k)`). -/
def alookup {α : Type} (k : Str) : List (Str × α) → Option α
  | [] => none
  | (k', v) :: rest => if k = k' then some v else alookup k rest

/-- Model of Python dict assignment `d[k] = v`: update in place if the key
exists (keeping its position), else append, exactly as Python dicts keep
insertion order. -/
def ainsert {α : Type} (k : Str) (v : α) : List (Str × α) → List (Str × α)
  | [] => [(k, v)]
  | (k', v') :: rest => if k = k' then (k, v) :: rest else (k', v') :: ainsert k v rest

/-- The keys of an association list, in iteration order. -/
def akeys {α : Type} (l : List (Str × α)) : List Str := l.map Prod.fst

/-- The engine state: the read-only word-vector table `model.wv` (an
insertion-ordered map word → vector, its key order modelling
`model.wv.key_to_index`) and the two corpus mappings. -/
structure Engine (D : ℕ) where
  wv : List (Str × Vec D)
  blog_metadata : List (Str × Metadata)
  doc_embeddings : List (Str × Vec D)
deriving DecidableEq

/-- Model of `_create_document_emedding` (src/search_engine.py lines 31-41,
the source spells it without the `b`): collect the vectors of the words
present in `model.wv`, in order; average them if any, else return the zero
vector of dimension `D`. -/
def create_document_emedding {D : ℕ} (wv : List (Str × Vec D)) (words : List Str) : Vec D :=
  let vectors := words.filterMap fun word => alookup word wv
  if vectors = [] then zeroVec D else vmean vectors

/-- The header tags scanned by `_index_single_blog`. -/
def titleTag : Str := "Title: ".data

/-- The author header tag. -/
def authorTag : Str := "Author: ".data

/-- The category header tag. -/
def categoryTag : Str := "Category: ".data

/-- The URL header tag. -/
def urlTag : Str := "URL: ".data

/-- The delimiter test of src/search_engine.py line 72:
`line.startswith('===')`. -/
def delimTag : Str := "===".data

/-- Accumulator of the header-scanning loop of `_index_single_blog`
(src/search_engine.py lines 60-74): the metadata fields assigned so far and
`content_start`. -/
structure ScanAcc where
  title : Option Str := none
  author : Option Str := none
  category : Option Str := none
  url : Option Str := none
  content_start : ℕ := 0
deriving DecidableEq

/-- The `for i, line in enumerate(lines)` loop of `_index_single_blog`
(src/search_engine.py lines 63-74): each recognised header line overwrites
its field; the first line starting with `===` sets
`content_start = i + 1` and breaks. -/
def header_scan : ℕ → ScanAcc → List Str → ScanAcc
  | _, acc, [] => acc
  | i, acc, line :: rest =>
    if isPrefixL titleTag line then
      header_scan (i+1) {acc with title := some (trimWs (replaceRemove titleTag line))} rest
    else if isPrefixL authorTag line then
      header_scan (i+1) {acc with author := some (trimWs (replaceRemove authorTag line))} rest
    else if isPrefixL categoryTag line then
      header_scan (i+1) {acc with category := some (trimWs (replaceRemove categoryTag line))} rest
    else if isPrefixL urlTag line then
      header_scan (i+1) {acc with url := some (trimWs (replaceRemove urlTag line))} rest
    else if isPrefixL delimTag line then
      {acc with content_start := i + 1}
    else header_scan (i+1) acc rest

/-- The parsing part of `_index_single_blog` (src/search_engine.py
lines 59-76) applied to the file content: metadata and body text. -/
structure ParsedBlog where
  meta : Metadata
  body : Str
deriving DecidableEq

/-- Parse one blog file's content: split into lines, run the header scan,
join the lines from `content_start` into the body, and build the metadata
including `content_preview` (body truncated to 300 characters with an
ellipsis appended when longer). -/
def parse_blog (content : Str) : ParsedBlog :=
  let lines := splitLines content
  let acc := header_scan 0 {} lines
  let blog_conent := joinNl (lines.drop acc.content_start)
  let preview := if blog_conent.length > 300
    then blog_conent.take 300 ++ "...".data else blog_conent
  { meta := { title := acc.title, author := acc.author, category := acc.category,
              url := acc.url, content_preview := preview },
    body := blog_conent }

/-- Model of `_index_single_blog` (src/search_engine.py lines 53-90).  The
whole body runs under `try/except`; in CPython the only fallible step is
reading the file (everything after `f.read()` succeeds on every string), so
the content is passed as `none` when the read raises and the state is then
returned unchanged, the exception being logged.  On success the metadata is
stored, then the title + body text is tokenized and embedded and the
embedding is stored under the same filename key. -/
def index_single_blog {D : ℕ} (st : Engine D) (filename : Str) (content? : Option Str) :
    Engine D :=
  match content? with
  | none => st
  | some content =>
    let p := parse_blog content
    let st1 := { st with blog_metadata := ainsert filename p.meta st.blog_metadata }
    let all_text := (p.meta.title.getD []) ++ ' ' :: p.body
    let words := clean_text all_text
    let doc_embedding := create_document_emedding st.wv words
    { st1 with doc_embeddings := ainsert filename doc_embedding st1.doc_embeddings }

/-- Model of `filename.endswith('.txt')`. -/
def endsTxt (fn : Str) : Bool := isPrefixL (".txt".data.reverse) fn.reverse

/-- Model of `_index_blogs` (src/search_engine.py lines 43-51): if the blog
directory does not exist (`listing? = none`) return with the state
unchanged; otherwise process each `.txt` entry of the listing in order,
reading each file through the oracle `readFile` (`none` = the read raised). -/
def index_blogs {D : ℕ} (st : Engine D) (listing? : Option (List Str))
    (readFile : Str → Option Str) : Engine D :=
  match listing? with
  | none => st
  | some files =>
    files.foldl (fun s fn => if endsTxt fn then index_single_blog s fn (readFile fn) else s) st

/-- Model of `_get_query_embeddings` (src/search_engine.py lines 93-95). -/
def get_query_embeddings {D : ℕ} (st : Engine D) (query : Str) : Vec D :=
  create_document_emedding st.wv (clean_text query)

/-- Model of `_compute_similarities` (src/search_engine.py lines 97-114):
empty when the query norm is zero; otherwise one entry per document of
nonzero norm, in `doc_embeddings` iteration order. -/
def compute_similarities {D : ℕ} (st : Engine D) (query_embedding : Vec D) :
    List (Str × ℚ) :=
  if normSq query_embedding = 0 then []
  else st.doc_embeddings.filterMap fun p =>
    if 0 < normSq p.2 then some (p.1, simScore query_embedding p.2) else none

/-- Model of `sorted(similarities.items(), key=lambda x: x[1], reverse=True)`:
a stable sort, descending by score. -/
def sortDesc (l : List (Str × ℚ)) : List (Str × ℚ) :=
  l.mergeSort fun a b => decide (b.2 ≤ a.2)

/-- The ranked branch of `search` (src/search_engine.py lines 140-146):
sort the similarities descending, keep the first `top_k`, and attach
`self.blog_metadata.get(filename, {})`. -/
def ranked_results {D : ℕ} (st : Engine D) (sims : List (Str × ℚ)) (top_k : ℕ) :
    List (Str × ℚ × Metadata) :=
  ((sortDesc sims).take top_k).map fun p =>
    (p.1, p.2, (alookup p.1 st.blog_metadata).getD Metadata.emptyDict)

/-- Model of `_fallback_search` (src/search_engine.py lines 148-166).
Python's `set(self._clean_text(query))` is modelled by `List.dedup`; the
only use is the `any(...)` test, which is insensitive to order and
duplicates.  Note the code lowercases title and preview twice (once at
binding time, once inside the test); both applications are kept. -/
def fallback_search {D : ℕ} (st : Engine D) (query : Str) (top_k : ℕ) :
    List (Str × ℚ × Metadata) :=
  let query_words := (clean_text query).dedup
  let matching_blogs := st.blog_metadata.filterMap fun p =>
    let title := lowerStr (p.2.title.getD [])
    let content := lowerStr p.2.content_preview
    if query_words.any fun word =>
        containsSub word (lowerStr title) || containsSub word (lowerStr content)
    then some (p.1, (1 : ℚ)/2, p.2) else none
  matching_blogs.take top_k

/-- Model of `search` (src/search_engine.py lines 115-146): normalize the
query (`query.lower().strip()`); empty → fallback search; otherwise embed,
compute similarities, return `[]` when there are none, else the ranked
branch. -/
def search {D : ℕ} (st : Engine D) (query : Str) (top_k : ℕ) :
    List (Str × ℚ × Metadata) :=
  let query' := trimWs (lowerStr query)
  if query' = [] then fallback_search st query' top_k
  else
    let query_embedding := get_query_embeddings st query'
    let similarities := compute_similarities st query_embedding
    if similarities = [] then []
    else ranked_results st similarities top_k

/-- The record returned by `get_stats` (src/search_engine.py lines 168-173). -/
structure Stats where
  total_blogs : ℕ
  vocabulary_size : ℕ
  embedding_dimension : ℕ
deriving DecidableEq

/-- Model of `get_stats`. -/
def get_stats {D : ℕ} (st : Engine D) : Stats :=
  { total_blogs := st.doc_embeddings.length
    vocabulary_size := st.wv.length
    embedding_dimension := D }

/-- Model of `get_vocabulary_sample` (src/search_engine.py lines 174-177):
the first `n` vocabulary words in `key_to_index` order. -/
def get_vocabulary_sample {D : ℕ} (st : Engine D) (n : ℕ) : List Str :=
  (akeys st.wv).take n

/-- State-threaded form of `search`: the method bodies of the query-time
operations contain no assignment to any `self` field (src/search_engine.py
lines 93-177), so the faithful state-transformer translation pairs the pure
result with the unchanged engine state. -/
def search_step {D : ℕ} (st : Engine D) (query : Str) (top_k : ℕ) :
    List (Str × ℚ × Metadata) × Engine D :=
  (search st query top_k, st)

/-- State-threaded form of `_fallback_search` (no `self` field assignment). -/
def fallback_search_step {D : ℕ} (st : Engine D) (query : Str) (top_k : ℕ) :
    List (Str × ℚ × Metadata) × Engine D :=
  (fallback_search st query top_k, st)

/-- State-threaded form of `get_stats` (no `self` field assignment). -/
def get_stats_step {D : ℕ} (st : Engine D) : Stats × Engine D :=
  (get_stats st, st)

/-- State-threaded form of `get_vocabulary_sample` (no `self` field
assignment). -/
def get_vocabulary_sample_step {D : ℕ} (st : Engine D) (n : ℕ) :
    List Str × Engine D :=
  (get_vocabulary_sample st n, st)


/-- The claim-side counterpart of `_fallback_search`, written from the
specification's words for the refinement comparison in the C6 theorem: the
documents, in index-iteration order, for which some tokenized query word is
a substring of the lower-cased title or of the lower-cased content
preview. -/
def fallback_matches_spec {D : ℕ} (st : Engine D) (query : Str) : List (Str × Metadata) :=
  st.blog_metadata.filter fun p =>
    decide (∃ w ∈ clean_text query,
      containsSub w (lowerStr (p.2.title.getD [])) = true ∨
      containsSub w (lowerStr p.2.content_preview) = true)

/-- Concrete one-dimensional word vector used by the example engines. -/
def vTwo : Vec 1 := fun _ => 2

/-- Concrete embedding table: only the word "tech" has a vector. -/
def wvEx : List (Str × Vec 1) := [("tech".data, vTwo)]

/-- Concrete blog file whose body resolves in the table ("tech") and whose
title contains "food". -/
def fileTech : Str := "Title: Best Food Blog\n===\ngreat tech stuff".data

/-- Concrete blog file none of whose words resolve in the table, so its
document embedding is the zero vector. -/
def fileOther : Str := "Title: Other\n===\nxyzq qwerty".data

/-- Read oracle for the example engines. -/
def egReadFile : Str → Option Str := fun fn =>
  if fn = "d1.txt".data then some fileTech
  else if fn = "d2.txt".data then some fileOther else none

/-- Example engine with the single document `d1.txt`. -/
def egEngine : Engine 1 :=
  index_blogs (Engine.mk wvEx [] []) (some ["d1.txt".data]) egReadFile

/-- Example engine with documents `d1.txt` (nonzero embedding) and `d2.txt`
(zero embedding). -/
def egEngine2 : Engine 1 :=
  index_blogs (Engine.mk wvEx [] []) (some ["d1.txt".data, "d2.txt".data]) egReadFile


section CharLemmas

theorem uint32_le_iff (a b : UInt32) : a ≤ b ↔ a.toNat ≤ b.toNat := by
  simp [UInt32.le_def, BitVec.le_def, UInt32.toNat]

theorem isUpper_iff (c : Char) : c.isUpper = true ↔ 65 ≤ c.toNat ∧ c.toNat ≤ 90 := by
  simp only [Char.isUpper, Bool.and_eq_true, decide_eq_true_eq, ge_iff_le]
  rw [uint32_le_iff, uint32_le_iff]
  exact Iff.rfl

theorem isLower_iff (c : Char) : c.isLower = true ↔ 97 ≤ c.toNat ∧ c.toNat ≤ 122 := by
  simp only [Char.isLower, Bool.and_eq_true, decide_eq_true_eq, ge_iff_le]
  rw [uint32_le_iff, uint32_le_iff]
  exact Iff.rfl

theorem isAlpha_iff (c : Char) :
    c.isAlpha = true ↔ (65 ≤ c.toNat ∧ c.toNat ≤ 90) ∨ (97 ≤ c.toNat ∧ c.toNat ≤ 122) := by
  simp only [Char.isAlpha, Bool.or_eq_true, isUpper_iff, isLower_iff]

theorem toNat_toLower (c : Char) :
    c.toLower.toNat = if 65 ≤ c.toNat ∧ c.toNat ≤ 90 then c.toNat + 32 else c.toNat := by
  unfold Char.toLower
  split
  · next h =>
    rw [if_pos ⟨h.1, h.2⟩]
    have hv : (c.toNat + 32).isValidChar := Or.inl (by omega)
    rw [Char.ofNat, dif_pos hv]
    rfl
  · next h =>
    rw [if_neg h]

theorem toLower_toLower (c : Char) : c.toLower.toLower = c.toLower := by
  have h1 := toNat_toLower c
  have h2 := toNat_toLower c.toLower
  have h3 : c.toLower.toLower.toNat = c.toLower.toNat := by
    rw [h2, h1]
    by_cases h : 65 ≤ c.toNat ∧ c.toNat ≤ 90
    · rw [if_pos h, if_neg (by omega)]
    · rw [if_neg h, if_neg h]
  exact Char.eq_of_val_eq (UInt32.toNat.inj h3)

theorem isUpper_toLower (c : Char) : c.toLower.isUpper = false := by
  have h1 := toNat_toLower c
  by_contra hc
  have hu : c.toLower.isUpper = true := by
    cases h : c.toLower.isUpper
    · exact absurd h hc
    · rfl
  have := (isUpper_iff _).mp hu
  by_cases h : 65 ≤ c.toNat ∧ c.toNat ≤ 90
  · rw [h1, if_pos h] at this; omega
  · rw [h1, if_neg h] at this; omega

theorem whitespace_toLower_not_alpha (c : Char) (h : c.isWhitespace = true) :
    c.toLower.isAlpha = false := by
  have : ((c = ' ' ∨ c = '\t') ∨ c = '\r') ∨ c = '\n' := by
    simpa [Char.isWhitespace] using h
  rcases this with ((h | h) | h) | h <;> subst h <;> decide

theorem lowerStr_idem (s : Str) : lowerStr (lowerStr s) = lowerStr s := by
  simp only [lowerStr, List.map_map]
  exact List.map_congr_left fun c _ => toLower_toLower c

end CharLemmas

section SplitRunsLemmas

theorem splitRuns_chars_subset (cs : Str) :
    ∀ acc, ∀ t ∈ splitRuns acc cs, ∀ c ∈ t, c ∈ acc ∨ c ∈ cs := by
  induction cs with
  | nil =>
    intro acc t ht c hc
    simp only [splitRuns] at ht
    split at ht
    · simp at ht
    · simp only [List.mem_singleton] at ht
      subst ht
      exact Or.inl (List.mem_reverse.mp hc)
  | cons d ds ih =>
    intro acc t ht c hc
    simp only [splitRuns] at ht
    split at ht
    · rcases ih (d :: acc) t ht c hc with h | h
      · rcases List.mem_cons.mp h with h | h
        · exact Or.inr (h ▸ List.mem_cons_self d ds)
        · exact Or.inl h
      · exact Or.inr (List.mem_cons_of_mem d h)
    · rcases List.mem_append.mp ht with h | h
      · split at h
        · simp at h
        · simp only [List.mem_singleton] at h
          subst h
          exact Or.inl (List.mem_reverse.mp hc)
      · rcases ih [] t h c hc with h' | h'
        · simp at h'
        · exact Or.inr (List.mem_cons_of_mem d h')

theorem splitRuns_chars_alpha (cs : Str) :
    ∀ acc, (∀ c ∈ acc, c.isAlpha = true) →
    ∀ t ∈ splitRuns acc cs, ∀ c ∈ t, c.isAlpha = true := by
  induction cs with
  | nil =>
    intro acc hacc t ht c hc
    simp only [splitRuns] at ht
    split at ht
    · simp at ht
    · simp only [List.mem_singleton] at ht
      subst ht
      exact hacc c (List.mem_reverse.mp hc)
  | cons d ds ih =>
    intro acc hacc t ht c hc
    simp only [splitRuns] at ht
    split at ht
    · next hd =>
      refine ih (d :: acc) ?_ t ht c hc
      intro c' hc'
      rcases List.mem_cons.mp hc' with h | h
      · exact h ▸ hd
      · exact hacc c' h
    · rcases List.mem_append.mp ht with h | h
      · split at h
        · simp at h
        · simp only [List.mem_singleton] at h
          subst h
          exact hacc c (List.mem_reverse.mp hc)
      · exact ih [] (by simp) t h c hc

theorem splitRuns_of_no_alpha (cs : Str) (h : ∀ c ∈ cs, c.isAlpha = false) :
    splitRuns [] cs = [] := by
  induction cs with
  | nil => simp [splitRuns]
  | cons d ds ih =>
    simp only [splitRuns]
    rw [if_neg (by simp [h d (List.mem_cons_self d ds)])]
    simp only [List.isEmpty_nil, if_pos rfl, List.nil_append]
    exact ih fun c hc => h c (List.mem_cons_of_mem d hc)

end SplitRunsLemmas

section AssocLemmas

theorem akeys_ainsert_of_mem {α : Type} (k : Str) (v : α) (l : List (Str × α))
    (h : k ∈ akeys l) : akeys (ainsert k v l) = akeys l := by
  induction l with
  | nil => simp [akeys] at h
  | cons p rest ih =>
    obtain ⟨k', v'⟩ := p
    by_cases hk : k = k'
    · subst hk
      simp [ainsert, akeys]
    · simp only [akeys, List.map_cons, List.mem_cons] at h
      rcases h with h | h
      · exact absurd h hk
      · simp only [ainsert, if_neg hk, akeys, List.map_cons]
        rw [show List.map Prod.fst (ainsert k v rest) = akeys (ainsert k v rest) from rfl,
          ih h]
        rfl

theorem akeys_ainsert_of_not_mem {α : Type} (k : Str) (v : α) (l : List (Str × α))
    (h : k ∉ akeys l) : akeys (ainsert k v l) = akeys l ++ [k] := by
  induction l with
  | nil => simp [ainsert, akeys]
  | cons p rest ih =>
    obtain ⟨k', v'⟩ := p
    simp only [akeys, List.map_cons, List.mem_cons] at h
    push_neg at h
    simp only [ainsert, if_neg h.1, akeys, List.map_cons]
    rw [show List.map Prod.fst (ainsert k v rest) = akeys (ainsert k v rest) from rfl,
      ih h.2]
    rfl

theorem mem_akeys_ainsert {α : Type} (k k' : Str) (v : α) (l : List (Str × α)) :
    k' ∈ akeys (ainsert k v l) ↔ k' = k ∨ k' ∈ akeys l := by
  by_cases h : k ∈ akeys l
  · rw [akeys_ainsert_of_mem k v l h]
    constructor
    · exact Or.inr
    · rintro (rfl | h') <;> [exact h; exact h']
  · rw [akeys_ainsert_of_not_mem k v l h]
    simp [or_comm]

theorem alookup_eq_some_of_mem {α : Type} (k : Str) (v : α) (l : List (Str × α))
    (hnd : (akeys l).Nodup) (hmem : (k, v) ∈ l) : alookup k l = some v := by
  induction l with
  | nil => simp at hmem
  | cons p rest ih =>
    obtain ⟨k', v'⟩ := p
    simp only [akeys, List.map_cons, List.nodup_cons] at hnd
    rcases List.mem_cons.mp hmem with h | h
    · rw [Prod.mk.injEq] at h
      obtain ⟨h1, h2⟩ := h
      subst h1
      subst h2
      simp [alookup]
    · have hk : k ≠ k' := by
        rintro rfl
        exact hnd.1 (List.mem_map.mpr ⟨(k, v), h, rfl⟩)
      simp only [alookup, if_neg hk]
      exact ih hnd.2 h

theorem mem_of_alookup_eq_some {α : Type} (k : Str) (v : α) (l : List (Str × α))
    (h : alookup k l = some v) : (k, v) ∈ l := by
  induction l with
  | nil => simp [alookup] at h
  | cons p rest ih =>
    obtain ⟨k', v'⟩ := p
    simp only [alookup] at h
    split at h
    · next heq =>
      injection h with h2
      exact List.mem_cons.mpr (Or.inl (by rw [heq, h2]))
    · exact List.mem_cons_of_mem _ (ih h)

end AssocLemmas

section FilterMapLemmas

theorem filterMap_if_eq_map_filter {α β : Type} (p : α → Bool) (f : α → β) (l : List α) :
    (l.filterMap fun a => if p a then some (f a) else none) = (l.filter p).map f := by
  induction l with
  | nil => simp
  | cons a rest ih =>
    cases h : p a
    · simp [List.filterMap_cons, List.filter_cons, h, ih]
    · simp [List.filterMap_cons, List.filter_cons, h, ih]

theorem any_dedup {α : Type} [DecidableEq α] (l : List α) (p : α → Bool) :
    l.dedup.any p = l.any p := by
  cases h1 : l.any p
  · cases h2 : l.dedup.any p
    · rfl
    · obtain ⟨a, ha, hpa⟩ := List.any_eq_true.mp h2
      have h3 : l.any p = true := List.any_eq_true.mpr ⟨a, List.mem_dedup.mp ha, hpa⟩
      rw [h1] at h3
      exact h3.symm
  · obtain ⟨a, ha, hpa⟩ := List.any_eq_true.mp h1
    exact List.any_eq_true.mpr ⟨a, List.mem_dedup.mpr ha, hpa⟩

end FilterMapLemmas

section IndexInvariants

theorem keys_eq_index_single {D : ℕ} (st : Engine D) (f : Str) (c? : Option Str)
    (h : akeys st.blog_metadata = akeys st.doc_embeddings) :
    akeys (index_single_blog st f c?).blog_metadata
      = akeys (index_single_blog st f c?).doc_embeddings := by
  cases c? with
  | none => exact h
  | some c =>
    simp only [index_single_blog]
    by_cases hm : f ∈ akeys st.blog_metadata
    · rw [akeys_ainsert_of_mem _ _ _ hm, akeys_ainsert_of_mem _ _ _ (h ▸ hm)]
      exact h
    · rw [akeys_ainsert_of_not_mem _ _ _ hm, akeys_ainsert_of_not_mem _ _ _ (h ▸ hm)]
      rw [h]

theorem keys_eq_index_blogs {D : ℕ} (files : List Str) (readFile : Str → Option Str) :
    ∀ (st : Engine D), akeys st.blog_metadata = akeys st.doc_embeddings →
    akeys ((files.foldl
        (fun s fn => if endsTxt fn then index_single_blog s fn (readFile fn) else s)
          st).blog_metadata)
      = akeys ((files.foldl
        (fun s fn => if endsTxt fn then index_single_blog s fn (readFile fn) else s)
          st).doc_embeddings) := by
  induction files with
  | nil => intro st h; exact h
  | cons fn rest ih =>
    intro st h
    simp only [List.foldl_cons]
    by_cases ht : endsTxt fn
    · rw [if_pos ht]
      exact ih _ (keys_eq_index_single st fn (readFile fn) h)
    · rw [if_neg ht]
      exact ih _ h

theorem mem_keys_index_single {D : ℕ} (st : Engine D) (fn f : Str) (c? : Option Str) :
    (f ∈ akeys (index_single_blog st fn c?).blog_metadata
      ↔ (f = fn ∧ c?.isSome = true) ∨ f ∈ akeys st.blog_metadata)
    ∧ (f ∈ akeys (index_single_blog st fn c?).doc_embeddings
      ↔ (f = fn ∧ c?.isSome = true) ∨ f ∈ akeys st.doc_embeddings) := by
  cases c? with
  | none => simp [index_single_blog]
  | some c =>
    simp only [index_single_blog, Option.isSome_some, and_true]
    exact ⟨mem_akeys_ainsert fn f _ _, mem_akeys_ainsert fn f _ _⟩

end IndexInvariants

/-- C2: during and after index construction the metadata mapping and the
embedding mapping always have identical key sets; a document is inserted
into both (when its file content is read successfully) or into neither
(when the read fails, the engine state is exactly unchanged), so the pair
insertion of `_index_single_blog` is atomic with respect to the invariant.
In the code the only fallible step of a document's ingestion is the
`open`/`read` call: every later step (header parsing, preview computation,
tokenization, embedding) is a total computation on the obtained string, so
a partial failure cannot separate the two insertions at lines 79 and 87 of
src/search_engine.py. -/
theorem C2_index_key_sets_identical {D : ℕ} (st : Engine D) (filename : Str)
    (content? : Option Str)
    (h : akeys st.blog_metadata = akeys st.doc_embeddings) :
    (akeys (index_single_blog st filename content?).blog_metadata
      = akeys (index_single_blog st filename content?).doc_embeddings)
    ∧ (content? = none → index_single_blog st filename content? = st)
    ∧ (∀ c, content? = some c →
        filename ∈ akeys (index_single_blog st filename content?).blog_metadata
        ∧ filename ∈ akeys (index_single_blog st filename content?).doc_embeddings)
    ∧ ∀ (listing? : Option (List Str)) (readFile : Str → Option Str),
        akeys (index_blogs st listing? readFile).blog_metadata
          = akeys (index_blogs st listing? readFile).doc_embeddings := by
  refine ⟨keys_eq_index_single st filename content? h, ?_, ?_, ?_⟩
  · rintro rfl
    rfl
  · rintro c rfl
    constructor
    · exact ((mem_keys_index_single st filename filename (some c)).1).mpr
        (Or.inl ⟨rfl, rfl⟩)
    · exact ((mem_keys_index_single st filename filename (some c)).2).mpr
        (Or.inl ⟨rfl, rfl⟩)
  · intro listing? readFile
    cases listing? with
    | none => exact h
    | some files => exact keys_eq_index_blogs files readFile st h

/-- Witness for C2 at a concrete engine, file and content. -/
theorem C2_index_key_sets_identical_witness :
    (akeys (Engine.mk ([] : List (Str × Vec 1)) [] []).blog_metadata
      = akeys (Engine.mk ([] : List (Str × Vec 1)) [] []).doc_embeddings)
    ∧ (akeys (index_single_blog (Engine.mk ([] : List (Str × Vec 1)) [] [])
        "a.txt".data (some "Title: T\n===\nbody".data)).blog_metadata
      = akeys (index_single_blog (Engine.mk ([] : List (Str × Vec 1)) [] [])
        "a.txt".data (some "Title: T\n===\nbody".data)).doc_embeddings) :=
  ⟨rfl, (C2_index_key_sets_identical (Engine.mk ([] : List (Str × Vec 1)) [] [])
    "a.txt".data (some "Title: T\n===\nbody".data) rfl).1⟩

/-- C8: per-file ingestion failure is contained.  Starting from the empty
index, a filename ends up indexed (in both mappings) exactly when it is a
`.txt` entry of the directory listing whose own read succeeds — whether any
other file's read fails is irrelevant, and ingestion is a total function
(never aborts). -/
theorem C8_per_file_failure_contained {D : ℕ} (wv : List (Str × Vec D))
    (files : List Str) (readFile : Str → Option Str) (f : Str) :
    (f ∈ akeys (index_blogs (Engine.mk wv [] []) (some files) readFile).blog_metadata
      ↔ f ∈ files ∧ endsTxt f = true ∧ (readFile f).isSome = true)
    ∧ (f ∈ akeys (index_blogs (Engine.mk wv [] []) (some files) readFile).doc_embeddings
      ↔ f ∈ files ∧ endsTxt f = true ∧ (readFile f).isSome = true) := by
  have key : ∀ (fs : List Str) (st : Engine D),
      (f ∈ akeys ((fs.foldl
          (fun s fn => if endsTxt fn then index_single_blog s fn (readFile fn) else s)
            st).blog_metadata)
        ↔ f ∈ akeys st.blog_metadata
          ∨ (f ∈ fs ∧ endsTxt f = true ∧ (readFile f).isSome = true))
      ∧ (f ∈ akeys ((fs.foldl
          (fun s fn => if endsTxt fn then index_single_blog s fn (readFile fn) else s)
            st).doc_embeddings)
        ↔ f ∈ akeys st.doc_embeddings
          ∨ (f ∈ fs ∧ endsTxt f = true ∧ (readFile f).isSome = true)) := by
    intro fs
    induction fs with
    | nil => intro st; simp
    | cons fn rest ih =>
      intro st
      simp only [List.foldl_cons, List.mem_cons]
      by_cases ht : endsTxt fn
      · rw [if_pos ht]
        have h1 := (ih (index_single_blog st fn (readFile fn))).1
        have h2 := (ih (index_single_blog st fn (readFile fn))).2
        rw [h1, h2]
        rw [(mem_keys_index_single st fn f (readFile fn)).1,
          (mem_keys_index_single st fn f (readFile fn)).2]
        constructor
        · constructor
          · rintro ((⟨rfl, hs⟩ | hm) | hr)
            · exact Or.inr ⟨Or.inl rfl, ht, hs⟩
            · exact Or.inl hm
            · exact Or.inr ⟨Or.inr hr.1, hr.2⟩
          · rintro (hm | ⟨(rfl | hf), he, hs⟩)
            · exact Or.inl (Or.inr hm)
            · exact Or.inl (Or.inl ⟨rfl, hs⟩)
            · exact Or.inr ⟨hf, he, hs⟩
        · constructor
          · rintro ((⟨rfl, hs⟩ | hm) | hr)
            · exact Or.inr ⟨Or.inl rfl, ht, hs⟩
            · exact Or.inl hm
            · exact Or.inr ⟨Or.inr hr.1, hr.2⟩
          · rintro (hm | ⟨(rfl | hf), he, hs⟩)
            · exact Or.inl (Or.inr hm)
            · exact Or.inl (Or.inl ⟨rfl, hs⟩)
            · exact Or.inr ⟨hf, he, hs⟩
      · rw [if_neg ht]
        have h1 := (ih st).1
        have h2 := (ih st).2
        rw [h1, h2]
        constructor
        · constructor
          · rintro (hm | hr)
            · exact Or.inl hm
            · exact Or.inr ⟨Or.inr hr.1, hr.2⟩
          · rintro (hm | ⟨(rfl | hf), he, hs⟩)
            · exact Or.inl hm
            · exact absurd he (by simpa using ht)
            · exact Or.inr ⟨hf, he, hs⟩
        · constructor
          · rintro (hm | hr)
            · exact Or.inl hm
            · exact Or.inr ⟨Or.inr hr.1, hr.2⟩
          · rintro (hm | ⟨(rfl | hf), he, hs⟩)
            · exact Or.inl hm
            · exact absurd he (by simpa using ht)
            · exact Or.inr ⟨hf, he, hs⟩
  have h := key files (Engine.mk wv [] [])
  have hnil1 : f ∉ akeys (Engine.mk wv [] []).blog_metadata := by
    intro hc
    simp only [akeys, List.map_nil] at hc
    exact List.not_mem_nil f hc
  have hnil2 : f ∉ akeys (Engine.mk wv [] []).doc_embeddings := by
    intro hc
    simp only [akeys, List.map_nil] at hc
    exact List.not_mem_nil f hc
  have hred : index_blogs (Engine.mk wv [] []) (some files) readFile
      = files.foldl
          (fun s fn => if endsTxt fn then index_single_blog s fn (readFile fn) else s)
          (Engine.mk wv [] []) := rfl
  rw [hred]
  constructor
  · rw [h.1]
    constructor
    · rintro (hm | hr)
      · exact absurd hm hnil1
      · exact hr
    · exact Or.inr
  · rw [h.2]
    constructor
    · rintro (hm | hr)
      · exact absurd hm hnil2
      · exact hr
    · exact Or.inr

/-- C10: no query-time operation mutates the engine: `search` (both paths),
`_fallback_search`, `get_stats` and `get_vocabulary_sample` contain no
assignment to any engine field, so their state-transformer forms return the
state unchanged. -/
theorem C10_query_ops_read_only {D : ℕ} (st : Engine D) (q : Str) (k n : ℕ) :
    (search_step st q k).2 = st ∧ (fallback_search_step st q k).2 = st
    ∧ (get_stats_step st).2 = st ∧ (get_vocabulary_sample_step st n).2 = st :=
  ⟨rfl, rfl, rfl, rfl⟩

section HeaderScanLemmas

theorem isPrefixL_head_false (a b : Char) (as bs : Str) (h : (a == b) = false) :
    isPrefixL (a :: as) (b :: bs) = false := by
  simp [isPrefixL, h]

theorem delim_shape (d : Str) (hd : isPrefixL delimTag d = true) :
    ∃ cs, d = '=' :: cs := by
  cases d with
  | nil => simp [delimTag, isPrefixL] at hd
  | cons c cs =>
    have hdel : delimTag = '=' :: "==".data := rfl
    rw [hdel] at hd
    simp only [isPrefixL, Bool.and_eq_true, beq_iff_eq] at hd
    exact ⟨cs, by rw [hd.1]⟩

theorem delim_not_title (d : Str) (hd : isPrefixL delimTag d = true) :
    isPrefixL titleTag d = false := by
  obtain ⟨cs, rfl⟩ := delim_shape d hd
  exact isPrefixL_head_false 'T' '=' _ _ (by decide)

theorem delim_not_author (d : Str) (hd : isPrefixL delimTag d = true) :
    isPrefixL authorTag d = false := by
  obtain ⟨cs, rfl⟩ := delim_shape d hd
  exact isPrefixL_head_false 'A' '=' _ _ (by decide)

theorem delim_not_category (d : Str) (hd : isPrefixL delimTag d = true) :
    isPrefixL categoryTag d = false := by
  obtain ⟨cs, rfl⟩ := delim_shape d hd
  exact isPrefixL_head_false 'C' '=' _ _ (by decide)

theorem delim_not_url (d : Str) (hd : isPrefixL delimTag d = true) :
    isPrefixL urlTag d = false := by
  obtain ⟨cs, rfl⟩ := delim_shape d hd
  exact isPrefixL_head_false 'U' '=' _ _ (by decide)

theorem header_scan_delim (pre : List Str) :
    ∀ (i : ℕ) (acc : ScanAcc) (d : Str) (post : List Str),
    (∀ l ∈ pre, isPrefixL delimTag l = false) → isPrefixL delimTag d = true →
    header_scan i acc (pre ++ d :: post) =
      { header_scan i acc pre with content_start := i + pre.length + 1 } := by
  induction pre with
  | nil =>
    intro i acc d post _ hd
    simp only [List.nil_append, List.length_nil, header_scan]
    rw [if_neg (by simp [delim_not_title d hd]),
      if_neg (by simp [delim_not_author d hd]),
      if_neg (by simp [delim_not_category d hd]),
      if_neg (by simp [delim_not_url d hd]),
      if_pos hd]

  | cons line pre' ih =>
    intro i acc d post hpre hd
    have hline : isPrefixL delimTag line = false := hpre line (List.mem_cons_self line pre')
    have hpre' : ∀ l ∈ pre', isPrefixL delimTag l = false :=
      fun l hl => hpre l (List.mem_cons_of_mem line hl)
    have harith : i + (line :: pre').length + 1 = (i + 1) + pre'.length + 1 := by
      simp only [List.length_cons]
      omega
    rw [harith]
    simp only [List.cons_append, header_scan]
    split
    · exact ih (i+1) _ d post hpre' hd
    · split
      · exact ih (i+1) _ d post hpre' hd
      · split
        · exact ih (i+1) _ d post hpre' hd
        · split
          · exact ih (i+1) _ d post hpre' hd
          · split
            · next h5 => rw [hline] at h5; exact absurd h5 (by simp)
            · exact ih (i+1) _ d post hpre' hd

end HeaderScanLemmas

/-- C3 counterexample: the claim reads the delimiter as "any line starting
with '='" (spec section 6).  The code tests `line.startswith('===')`, so a
line consisting of a single `=` does not end header scanning: in the file
`"=\nTitle: X\n===\nbody"` the first line starts with `=`, yet the
`Title:` line after it is still parsed as a header field, and the body is
not the lines after that first `=` line.  Hence the claim, as stated, is
false. -/
theorem C3_counterexample_single_equals :
    ¬ (∀ (content : Str) (pre post : List Str) (d : Str),
        splitLines content = pre ++ d :: post →
        (∀ l ∈ pre, isPrefixL ['='] l = false) →
        isPrefixL ['='] d = true →
        (parse_blog content).body = joinNl post ∧
        (parse_blog content).meta.title = (header_scan 0 {} pre).title) := by
  intro hclaim
  have h := hclaim "=\nTitle: X\n===\nbody".data []
    ["Title: X".data, "===".data, "body".data] "=".data
    (by with_unfolding_all decide) (by simp) (by decide)
  have ht : (parse_blog "=\nTitle: X\n===\nbody".data).meta.title = some "X".data := by
    with_unfolding_all decide
  have hnone : (header_scan 0 {} ([] : List Str)).title = none := rfl
  rw [ht, hnone] at h
  exact Option.noConfusion h.2

/-- C3 (amended): header-field scanning stops at the first line starting
with `===` (three equals signs, per `line.startswith('===')` in the code —
not at any line merely starting with `=` as the claim stated); no line
after that delimiter is parsed as a header field (all metadata fields are
those scanned from the lines before it), and exactly the lines after it
form the body text used for the preview and (with the title) for the
document embedding. -/
theorem C3_header_stops_at_delimiter (content : Str) (pre post : List Str) (d : Str)
    (hsplit : splitLines content = pre ++ d :: post)
    (hpre : ∀ l ∈ pre, isPrefixL delimTag l = false)
    (hd : isPrefixL delimTag d = true) :
    (parse_blog content).body = joinNl post
    ∧ (parse_blog content).meta.title = (header_scan 0 {} pre).title
    ∧ (parse_blog content).meta.author = (header_scan 0 {} pre).author
    ∧ (parse_blog content).meta.category = (header_scan 0 {} pre).category
    ∧ (parse_blog content).meta.url = (header_scan 0 {} pre).url
    ∧ (parse_blog content).meta.content_preview =
        (if (joinNl post).length > 300
          then (joinNl post).take 300 ++ "...".data else joinNl post) := by
  have hscan := header_scan_delim pre 0 {} d post hpre hd
  have hdrop : (pre ++ d :: post).drop (pre.length + 1) = post := by
    have : pre ++ d :: post = (pre ++ [d]) ++ post := by simp
    rw [this]
    have hlen : (pre ++ [d]).length = pre.length + 1 := by simp
    rw [← hlen]
    exact List.drop_left (pre ++ [d]) post
  have hbody : joinNl ((splitLines content).drop
      (header_scan 0 {} (splitLines content)).content_start) = joinNl post := by
    rw [hsplit, hscan]
    simp only [Nat.zero_add]
    rw [hdrop]
  refine ⟨?_, ?_, ?_, ?_, ?_, ?_⟩ <;>
    simp only [parse_blog, hsplit, hscan, Nat.zero_add, hdrop]

/-- Witness for the amended C3 theorem at a concrete file. -/
theorem C3_header_stops_at_delimiter_witness :
    (parse_blog "Title: T\n===\nbody".data).body = joinNl ["body".data]
    ∧ (parse_blog "Title: T\n===\nbody".data).meta.title
        = (header_scan 0 {} [ "Title: T".data ]).title
    ∧ (parse_blog "Title: T\n===\nbody".data).meta.author
        = (header_scan 0 {} [ "Title: T".data ]).author
    ∧ (parse_blog "Title: T\n===\nbody".data).meta.category
        = (header_scan 0 {} [ "Title: T".data ]).category
    ∧ (parse_blog "Title: T\n===\nbody".data).meta.url
        = (header_scan 0 {} [ "Title: T".data ]).url
    ∧ (parse_blog "Title: T\n===\nbody".data).meta.content_preview =
        (if (joinNl ["body".data]).length > 300
          then (joinNl ["body".data]).take 300 ++ "...".data else joinNl ["body".data]) :=
  C3_header_stops_at_delimiter "Title: T\n===\nbody".data
    ["Title: T".data] ["body".data] "===".data
    (by with_unfolding_all decide) (by with_unfolding_all decide)
    (by with_unfolding_all decide)

section RankerLemmas

theorem mem_compute_similarities {D : ℕ} (st : Engine D) (qe : Vec D) (p : Str × ℚ)
    (hp : p ∈ compute_similarities st qe) :
    ∃ d, (p.1, d) ∈ st.doc_embeddings ∧ 0 < normSq d ∧ p.2 = simScore qe d := by
  unfold compute_similarities at hp
  split at hp
  · simp at hp
  · obtain ⟨a, ha, hfa⟩ := List.mem_filterMap.mp hp
    split at hfa
    · next hpos =>
      injection hfa with hfa
      refine ⟨a.2, ?_, hpos, ?_⟩
      · rw [← hfa]; exact ha
      · rw [← hfa]
    · exact Option.noConfusion hfa

end RankerLemmas

/-- C4: for every query embedding, index and topK, the similarity-ranking
path (`_compute_similarities` followed by the sort/truncate/metadata steps
of `search`) returns at most `topK` results, and no returned result is a
document whose stored embedding has a zero squared norm: zero-magnitude
documents are excluded from scoring entirely. -/
theorem C4_rank_bounded_and_no_zero_docs {D : ℕ} (st : Engine D) (qe : Vec D) (k : ℕ)
    (hnd : (akeys st.doc_embeddings).Nodup) :
    (ranked_results st (compute_similarities st qe) k).length ≤ k
    ∧ ∀ r ∈ ranked_results st (compute_similarities st qe) k,
        ∀ e, alookup r.1 st.doc_embeddings = some e → normSq e ≠ 0 := by
  constructor
  · unfold ranked_results
    rw [List.length_map, List.length_take]
    exact min_le_left _ _
  · intro r hr e he
    unfold ranked_results at hr
    obtain ⟨p, hp, hfp⟩ := List.mem_map.mp hr
    have hp1 : p ∈ sortDesc (compute_similarities st qe) := List.mem_of_mem_take hp
    have hp2 : p ∈ compute_similarities st qe := by
      unfold sortDesc at hp1
      exact List.mem_mergeSort.mp hp1
    obtain ⟨d, hd, hdpos, _⟩ := mem_compute_similarities st qe p hp2
    have he' : alookup p.1 st.doc_embeddings = some d :=
      alookup_eq_some_of_mem p.1 d st.doc_embeddings hnd hd
    have hr1 : r.1 = p.1 := by rw [← hfp]
    rw [hr1, he'] at he
    injection he with he
    rw [← he]
    exact ne_of_gt hdpos

/-- Witness for C4 at the concrete two-document engine (one document of
which has a zero-magnitude embedding) and a concrete query embedding. -/
theorem C4_rank_bounded_and_no_zero_docs_witness :
    (akeys egEngine2.doc_embeddings).Nodup
    ∧ ((ranked_results egEngine2 (compute_similarities egEngine2 vTwo) 5).length ≤ 5
      ∧ ∀ r ∈ ranked_results egEngine2 (compute_similarities egEngine2 vTwo) 5,
          ∀ e, alookup r.1 egEngine2.doc_embeddings = some e → normSq e ≠ 0) :=
  ⟨by with_unfolding_all decide,
    C4_rank_bounded_and_no_zero_docs egEngine2 vTwo 5 (by with_unfolding_all decide)⟩

/-- C5: tokens absent from the table are skipped without error (removing an
absent token from anywhere in the sequence leaves the embedding unchanged);
when at least one token resolves the embedding is the component-wise
arithmetic mean of exactly the resolved vectors, and when none resolves it
is the all-zero vector of dimension `D`. -/
theorem C5_mean_pooling_embedding {D : ℕ} (wv : List (Str × Vec D))
    (words ws1 ws2 : List Str) (w : Str) :
    (alookup w wv = none →
      create_document_emedding wv (ws1 ++ w :: ws2)
        = create_document_emedding wv (ws1 ++ ws2))
    ∧ ((words.filterMap fun t => alookup t wv) = [] →
        create_document_emedding wv words = zeroVec D)
    ∧ ((words.filterMap fun t => alookup t wv) ≠ [] → ∀ i,
        create_document_emedding wv words i
          = ((words.filterMap fun t => alookup t wv).map fun v => v i).sum
              / ((words.filterMap fun t => alookup t wv).length : ℚ)) := by
  refine ⟨?_, ?_, ?_⟩
  · intro hw
    unfold create_document_emedding
    rw [List.filterMap_append, List.filterMap_append, List.filterMap_cons, hw]
  · intro hz
    unfold create_document_emedding
    rw [hz]
    rfl
  · intro hnz i
    unfold create_document_emedding
    rw [if_neg hnz]
    rfl

/-- Witness for C5: skipping the absent token "food" leaves the embedding
unchanged, an unresolvable token list embeds to the zero vector, and the
resolved singleton list embeds to its mean. -/
theorem C5_mean_pooling_embedding_witness :
    (alookup "food".data wvEx = none
      ∧ create_document_emedding wvEx (["tech".data] ++ "food".data :: [])
          = create_document_emedding wvEx (["tech".data] ++ []))
    ∧ (create_document_emedding wvEx ["xyzq".data] = zeroVec 1)
    ∧ (∀ i, create_document_emedding wvEx ["tech".data] i
        = ((["tech".data].filterMap fun t => alookup t wvEx).map fun v => v i).sum
            / ((["tech".data].filterMap fun t => alookup t wvEx).length : ℚ)) :=
  ⟨⟨by with_unfolding_all decide,
    (C5_mean_pooling_embedding wvEx [] ["tech".data] [] "food".data).1
      (by with_unfolding_all decide)⟩,
   (C5_mean_pooling_embedding wvEx ["xyzq".data] [] [] [].headI).2.1
      (by with_unfolding_all decide),
   (C5_mean_pooling_embedding wvEx ["tech".data] [] [] [].headI).2.2
      (by with_unfolding_all decide)⟩

/-- C9: document embedding is permutation-invariant — embedding a permuted
token sequence yields the same vector, because membership filtering, sums
and lengths are all invariant under permutation. -/
theorem C9_embedding_permutation_invariant {D : ℕ} (wv : List (Str × Vec D))
    (words words' : List Str) (h : words.Perm words') :
    create_document_emedding wv words = create_document_emedding wv words' := by
  have hp : (words.filterMap fun t => alookup t wv).Perm
      (words'.filterMap fun t => alookup t wv) := h.filterMap _
  unfold create_document_emedding
  by_cases hz : (words.filterMap fun t => alookup t wv) = []
  · have hz' : (words'.filterMap fun t => alookup t wv) = [] := by
      rw [hz] at hp
      exact (hp.symm).eq_nil
    rw [hz, hz']
  · have hz' : (words'.filterMap fun t => alookup t wv) ≠ [] := by
      intro hc
      rw [hc] at hp
      exact hz hp.eq_nil
    rw [if_neg hz, if_neg hz']
    funext i
    unfold vmean
    rw [(hp.map fun v => v i).sum_eq, hp.length_eq]

/-- Witness for C9 at a concrete transposition of a two-token sequence. -/
theorem C9_embedding_permutation_invariant_witness :
    create_document_emedding wvEx ["food".data, "tech".data]
      = create_document_emedding wvEx ["tech".data, "food".data] :=
  C9_embedding_permutation_invariant wvEx _ _
    (List.Perm.swap "tech".data "food".data [])

section FallbackLemmas

theorem any_eq_decide {α : Type} (l : List α) (pb : α → Bool) :
    l.any pb = decide (∃ a ∈ l, pb a = true) := by
  by_cases h : ∃ a ∈ l, pb a = true
  · rw [decide_eq_true h]
    exact List.any_eq_true.mpr h
  · rw [decide_eq_false h]
    cases hh : l.any pb
    · rfl
    · exact absurd (List.any_eq_true.mp hh) h

end FallbackLemmas

/-- C6: `_fallback_search` returns exactly the documents for which some
tokenized query word is a substring of the lower-cased title or of the
lower-cased content preview, in index-iteration order with no sorting,
truncated to the first `topK`, each carrying the fixed placeholder score
1/2. -/
theorem C6_fallback_filter_exact {D : ℕ} (st : Engine D) (q : Str) (k : ℕ) :
    fallback_search st q k
      = ((fallback_matches_spec st q).take k).map (fun p => (p.1, (1:ℚ)/2, p.2))
    ∧ (fallback_search st q k).length ≤ k
    ∧ ∀ r ∈ fallback_search st q k, r.2.1 = (1:ℚ)/2 := by
  have hmain : fallback_search st q k
      = ((fallback_matches_spec st q).take k).map (fun p => (p.1, (1:ℚ)/2, p.2)) := by
    show ((st.blog_metadata.filterMap fun p =>
        if (clean_text q).dedup.any fun word =>
            containsSub word (lowerStr (lowerStr (p.2.title.getD []))) ||
            containsSub word (lowerStr (lowerStr p.2.content_preview))
        then some (p.1, (1 : ℚ)/2, p.2) else none).take k)
      = ((fallback_matches_spec st q).take k).map (fun p => (p.1, (1:ℚ)/2, p.2))
    rw [filterMap_if_eq_map_filter
      (fun p => (clean_text q).dedup.any fun word =>
        containsSub word (lowerStr (lowerStr (p.2.title.getD []))) ||
        containsSub word (lowerStr (lowerStr p.2.content_preview)))
      (fun p => (p.1, (1:ℚ)/2, p.2)) st.blog_metadata]
    rw [← List.map_take]
    have hfilter : st.blog_metadata.filter
        (fun p => (clean_text q).dedup.any fun word =>
          containsSub word (lowerStr (lowerStr (p.2.title.getD []))) ||
          containsSub word (lowerStr (lowerStr p.2.content_preview)))
        = fallback_matches_spec st q := by
      unfold fallback_matches_spec
      apply List.filter_congr
      intro p _
      rw [lowerStr_idem (p.2.title.getD []), lowerStr_idem p.2.content_preview]
      rw [any_dedup, any_eq_decide]
      rw [decide_eq_decide]
      constructor
      · rintro ⟨w, hw, hor⟩
        exact ⟨w, hw, by simpa using hor⟩
      · rintro ⟨w, hw, hor⟩
        exact ⟨w, hw, by simpa using hor⟩
    rw [hfilter]
  refine ⟨hmain, ?_, ?_⟩
  · rw [hmain, List.length_map, List.length_take]
    exact min_le_left _ _
  · intro r hr
    rw [hmain] at hr
    obtain ⟨p, _, hfp⟩ := List.mem_map.mp hr
    rw [← hfp]

/-- C7: every token produced by the tokenizer is lower-cased (no upper-case
character), consists of alphabetic characters only, and has length between
3 and 50 inclusive; empty or whitespace-only input yields no tokens. -/
theorem C7_tokenizer_contract (text : Str) :
    (∀ t ∈ clean_text text,
      (∀ c ∈ t, c.isAlpha = true ∧ c.isUpper = false)
      ∧ 3 ≤ t.length ∧ t.length ≤ 50)
    ∧ ((∀ c ∈ text, c.isWhitespace = true) → clean_text text = []) := by
  constructor
  · intro t ht
    have hmem := List.mem_filter.mp ht
    have hlen := of_decide_eq_true hmem.2
    refine ⟨?_, hlen.1, hlen.2⟩
    intro c hc
    constructor
    · exact splitRuns_chars_alpha (lowerStr text) [] (by simp) t hmem.1 c hc
    · rcases splitRuns_chars_subset (lowerStr text) [] t hmem.1 c hc with h | h
      · simp at h
      · obtain ⟨c0, _, hc0⟩ := List.mem_map.mp h
        rw [← hc0]
        exact isUpper_toLower c0
  · intro hws
    have hna : ∀ c ∈ lowerStr text, c.isAlpha = false := by
      intro c hc
      obtain ⟨c0, hc0m, hc0⟩ := List.mem_map.mp hc
      rw [← hc0]
      exact whitespace_toLower_not_alpha c0 (hws c0 hc0m)
    unfold clean_text simple_preprocess
    rw [splitRuns_of_no_alpha (lowerStr text) hna]
    rfl

/-- Witness for C7 on whitespace-only input (and the token properties on a
concrete mixed input via the same theorem). -/
theorem C7_tokenizer_contract_witness :
    clean_text "  \t\n ".data = []
    ∧ ∀ t ∈ clean_text "Hello AI world".data,
        (∀ c ∈ t, c.isAlpha = true ∧ c.isUpper = false)
        ∧ 3 ≤ t.length ∧ t.length ≤ 50 :=
  ⟨(C7_tokenizer_contract "  \t\n ".data).2 (by decide),
   (C7_tokenizer_contract "Hello AI world".data).1⟩

/-- C1: divergence between the code and the claim.  For the query "food"
against `egEngine` — whose normalized form is non-empty, whose tokens do
not resolve in the table (so the query embedding has zero squared norm),
and for which the Fallback Matcher finds a match ("food" is a substring of
the lower-cased title "best food blog") — `search` returns the empty list
(src/search_engine.py lines 137-138 return `[]` when the similarity dict is
empty), whereas the claim requires it to return exactly
`fallbackSearch(normalizedQuery, index, topK)`, which is non-empty here.
The code never reaches `_fallback_search` on the zero-magnitude branch,
contradicting both the claim and `_fallback_search`'s own docstring
("Fallback search when the query word in not in vocabulary"). -/
theorem C1_zero_embedding_returns_empty_not_fallback :
    trimWs (lowerStr "food".data) ≠ []
    ∧ normSq (get_query_embeddings egEngine (trimWs (lowerStr "food".data))) = 0
    ∧ search egEngine "food".data 5 = []
    ∧ fallback_search egEngine (trimWs (lowerStr "food".data)) 5
        = [("d1.txt".data, (1:ℚ)/2, (parse_blog fileTech).meta)]
    ∧ (parse_blog fileTech).meta.title = some "Best Food Blog".data := by
  refine ⟨?_, ?_, ?_, ?_, ?_⟩ <;> with_unfolding_all decide

/-- Witness for C6 at the concrete engine and query "food" with topK 1. -/
theorem C6_fallback_filter_exact_witness :
    fallback_search egEngine "food".data 1
      = ((fallback_matches_spec egEngine "food".data).take 1).map
          (fun p => (p.1, (1:ℚ)/2, p.2))
    ∧ (fallback_search egEngine "food".data 1).length ≤ 1
    ∧ ∀ r ∈ fallback_search egEngine "food".data 1, r.2.1 = (1:ℚ)/2 :=
  C6_fallback_filter_exact egEngine "food".data 1
